import Mathlib

/-!
Verification of the blender-urx addon core against its specification.

The development shallowly embeds the three core components of the source:

* `src/ur_script.py` — the URScript text builder (`f_to_s`, `list_to_array`,
  `URScript` with `add_line`, `function`, `end`, `set_tool_digital_out`,
  `while_loop`, `servoj`, `movej`).  Numbers handed to the builder are
  embedded as exact rationals; `f_to_s` models Python's `'{0:.5f}'.format`
  (fixed-point, 5 fractional digits, ties resolved to even, which is what
  float formatting does on exactly representable inputs).
* the overrotation corrector of `src/__init__.py` (`fix_overrotation` and the
  per-frame correction loop of `URxExportAnimationOperator.execute`) — angles
  and frame rates are embedded as real numbers, with the exact constant
  `speed_limit = radians(191) * 1.02`; the Python `raise` is an `Except.error`.
* the segment stitcher of `src/__init__.py` (`distance`,
  `group_contiguous_segments`, `toolpath_from_polylines`) — points are exact
  rational triples; the source's `distance(a, b) < 0.01` test is embedded as
  the decidable `close_enough` on squared distances, with
  `close_enough_iff_distance` bridging it to the source's Euclidean formula.

Python exceptions are `Except Unit` errors; `None` is `Option.none`; the
`while` loop of `group_contiguous_segments` is run on a fuel bound that
exceeds its iteration count (each fuelled step either consumes a segment or
flushes the polyline, and a flush is always followed by a consuming step).
-/

namespace Binder

/-! ## `src/ur_script.py` -/

/-- Round `q` to the nearest integer, ties to the even integer.  This is the
rounding `'{0:.5f}'.format` performs on the (here exactly represented) value
of its argument. -/
def round_half_even (q : ℚ) : ℤ :=
  if q - ⌊q⌋ < 1/2 then ⌊q⌋
  else if 1/2 < q - ⌊q⌋ then ⌊q⌋ + 1
  else if ⌊q⌋ % 2 = 0 then ⌊q⌋ else ⌊q⌋ + 1

/-- The character for the decimal digit `d` (`d < 10`). -/
def digitChar (d : ℕ) : Char := Char.ofNat (48 + d)

/-- The exactly-five-digit rendering of `n % 100000`: the fractional part of a
`'{0:.5f}'` fixed-point literal. -/
def frac5 (n : ℕ) : String :=
  ⟨[digitChar (n / 10000 % 10), digitChar (n / 1000 % 10),
    digitChar (n / 100 % 10), digitChar (n / 10 % 10), digitChar (n % 10)]⟩

/-- `f_to_s` of `src/ur_script.py`: `'{0:.5f}'.format(float(v))`, fixed-point
text with exactly 5 digits after the decimal point.  `float(v)` is the
identity on the dyadic rationals considered here, and Python's float
formatting rounds the value's digits with ties to even. -/
def f_to_s (v : ℚ) : String :=
  let n : ℤ := round_half_even (v * 100000)
  (if v < 0 then "-" else "") ++ toString (n.natAbs / 100000) ++ "." ++
    frac5 (n.natAbs % 100000)

/-- `list_to_array` of `src/ur_script.py`. -/
def list_to_array (vals : List ℚ) : String :=
  "[" ++ String.intercalate "," (vals.map f_to_s) ++ "]"

/-- The state of the `URScript` builder of `src/ur_script.py`: the accumulated
program text and the current block depth (`indent_level` only moves between 0
and increments, so it is a natural number). -/
structure URScript where
  text : String
  indent_level : ℕ
deriving DecidableEq, Repr

/-- `URScript.__init__`. -/
def URScript.init : URScript := ⟨"", 0⟩

/-- `''.join('\t' for i in range(0, indent_level))`. -/
def tabs (n : ℕ) : String := String.join (List.replicate n "\t")

/-- Python's `str.strip()`: remove leading and trailing whitespace.
(`String.trim` has the same meaning but is defined by well-founded recursion
over byte positions, which blocks kernel evaluation; this structurally
recursive form is used instead.) -/
def strip (s : String) : String :=
  ⟨((s.data.dropWhile Char.isWhitespace).reverse.dropWhile
      Char.isWhitespace).reverse⟩

/-- `URScript.add_line`: append the stripped line at the current indentation,
with a trailing newline. -/
def URScript.add_line (s : URScript) (line : String) : URScript :=
  { s with text := s.text ++ tabs s.indent_level ++ strip line ++ "\n" }

/-- `URScript.function`: emit the function header, then increment the depth. -/
def URScript.function (s : URScript) (name : String) (args : List String) :
    URScript :=
  let s' := s.add_line ("def " ++ name ++ "(" ++ String.intercalate ", " args ++ "):")
  { s' with indent_level := s'.indent_level + 1 }

/-- `URScript.while_loop`: emit the while header, then increment the depth. -/
def URScript.while_loop (s : URScript) (condition : String) : URScript :=
  let s' := s.add_line ("while " ++ condition ++ ":")
  { s' with indent_level := s'.indent_level + 1 }

/-- `URScript.end` (named `end'` because `end` is a Lean keyword): raise if
the depth is 0, otherwise decrement the depth and then emit the `end` line
(so the line is indented at the decremented depth). -/
def URScript.end' (s : URScript) : Except Unit URScript :=
  if s.indent_level = 0 then .error ()
  else .ok ({ s with indent_level := s.indent_level - 1 }.add_line "end")

/-- `URScript.set_tool_digital_out`. -/
def URScript.set_tool_digital_out (s : URScript) (index : ℕ) (state : Bool) :
    URScript :=
  s.add_line ("set_tool_digital_out(" ++ toString index ++ ", " ++
    (if state then "True" else "False") ++ ")")

/-- `URScript.servoj`: raise (before emitting anything) unless exactly 6
angles are given; the acceleration and velocity fields are the unused
placeholders `a = 0`, `v = 0` of the source. -/
def URScript.servoj (s : URScript) (angles : List ℚ)
    (t lookahead_time gain : ℚ) : Except Unit URScript :=
  if angles.length = 6 then
    .ok (s.add_line ("servoj(" ++ list_to_array angles ++ ", " ++
      f_to_s 0 ++ ", " ++ f_to_s 0 ++ ", " ++ f_to_s t ++ ", " ++
      f_to_s lookahead_time ++ ", " ++ f_to_s gain ++ ")"))
  else .error ()

/-- `URScript.movej`: raise (before emitting anything) unless exactly 6
angles are given. -/
def URScript.movej (s : URScript) (angles : List ℚ) (a v t r : ℚ) :
    Except Unit URScript :=
  if angles.length = 6 then
    .ok (s.add_line ("movej(" ++ list_to_array angles ++ ", " ++ f_to_s a ++
      ", " ++ f_to_s v ++ ", " ++ f_to_s t ++ ", " ++ f_to_s r ++ ")"))
  else .error ()

/-- Modelled from the spec: `finalize()` belongs to the spec's
MotionProgramBuilder interface but is absent from `src/ur_script.py`
(callers read `script.text` directly).  Per the spec it fails with
UnbalancedBlockError if the depth is not 0 and otherwise returns the
accumulated text. -/
def URScript.finalize (s : URScript) : Except Unit String :=
  if s.indent_level = 0 then .ok s.text else .error ()

/-- One builder call, for reasoning about the states the builder can reach. -/
inductive Op where
  | function (name : String) (args : List String)
  | while_loop (condition : String)
  | set_tool_digital_out (index : ℕ) (state : Bool)
  | servoj (angles : List ℚ) (t lookahead_time gain : ℚ)
  | movej (angles : List ℚ) (a v t r : ℚ)
  | end'

/-- Run one builder call. -/
def URScript.run (s : URScript) : Op → Except Unit URScript
  | .function name args => .ok (s.function name args)
  | .while_loop condition => .ok (s.while_loop condition)
  | .set_tool_digital_out index state => .ok (s.set_tool_digital_out index state)
  | .servoj angles t lookahead_time gain => s.servoj angles t lookahead_time gain
  | .movej angles a v t r => s.movej angles a v t r
  | .end' => s.end'

/-- Run a sequence of builder calls, stopping at the first raised error. -/
def runOps (s : URScript) : List Op → Except Unit URScript
  | [] => .ok s
  | op :: ops =>
    match s.run op with
    | .error e => .error e
    | .ok s' => runOps s' ops

/-! ## The segment stitcher of `src/__init__.py` -/

/-- A 3D point, with exact rational coordinates. -/
abbrev Point : Type := ℚ × ℚ × ℚ

/-- A segment: the pair `(start, end)` of its endpoints. -/
abbrev Seg : Type := Point × Point

/-- `distance` of `src/__init__.py`: the Euclidean distance
`sqrt((x1-x0)^2 + (y1-y0)^2 + (z1-z0)^2)`. -/
noncomputable def distance (a b : Point) : ℝ :=
  Real.sqrt ((((b.1 - a.1 : ℚ) : ℝ)) ^ 2 + (((b.2.1 - a.2.1 : ℚ) : ℝ)) ^ 2 +
    (((b.2.2 - a.2.2 : ℚ) : ℝ)) ^ 2)

/-- `close_enough` of `group_contiguous_segments`, `distance(a, b) < 0.01`,
made decidable by comparing squared distances over the rationals;
`close_enough_iff_distance` below proves it equivalent to the source's
Euclidean formulation. -/
def close_enough (a b : Point) : Bool :=
  decide ((b.1 - a.1) ^ 2 + (b.2.1 - a.2.1) ^ 2 + (b.2.2 - a.2.2) ^ 2 <
    (1/10000 : ℚ))

/-- One pass of the inner `for segment in segments_remaining` loop of
`group_contiguous_segments`: thread the current polyline through the
segments, attaching each segment at either end when an endpoint is close
enough (seeding the polyline with the first segment when it is empty), and
collect the segments that did not attach.  Returns the updated polyline, the
retained segments, and the `extended_this_polyline` flag. -/
def stitchPass (poly : List Point) (segs : List Seg) :
    List Point × List Seg × Bool :=
  match segs with
  | [] => (poly, [], false)
  | (s, e) :: rest =>
    match poly with
    | [] =>
      let r := stitchPass [s, e] rest
      (r.1, r.2.1, true)
    | f :: ps =>
      let last := (f :: ps).getLastD f
      if close_enough last s then
        let r := stitchPass ((f :: ps) ++ [e]) rest
        (r.1, r.2.1, true)
      else if close_enough last e then
        let r := stitchPass ((f :: ps) ++ [s]) rest
        (r.1, r.2.1, true)
      else if close_enough f s then
        let r := stitchPass (e :: f :: ps) rest
        (r.1, r.2.1, true)
      else if close_enough f e then
        let r := stitchPass (s :: f :: ps) rest
        (r.1, r.2.1, true)
      else
        let r := stitchPass (f :: ps) rest
        (r.1, (s, e) :: r.2.1, r.2.2)

/-- The outer `while len(segments_remaining) > 0` loop of
`group_contiguous_segments`, on fuel: run a pass; if it attached a segment,
continue on the retained segments, otherwise flush the current polyline and
retry the same segments with an empty one.  When the segments run out the
open polyline (if any) is flushed.  The fuel bound used below strictly
exceeds the number of loop iterations: a pass over a nonempty segment list
with an empty polyline always consumes a segment, so at worst flushing and
consuming passes alternate. -/
def stitchLoop : ℕ → List Point → List Seg → List (List Point) →
    List (List Point)
  | _, poly, [], acc => if poly = [] then acc else acc ++ [poly]
  | 0, poly, _ :: _, acc => if poly = [] then acc else acc ++ [poly]
  | fuel + 1, poly, seg :: segs, acc =>
    let r := stitchPass poly (seg :: segs)
    if r.2.2 then stitchLoop fuel r.1 r.2.1 acc
    else stitchLoop fuel [] (seg :: segs) (acc ++ [poly])

/-- `group_contiguous_segments` of `src/__init__.py`.  A Python input of at
most one segment is returned as-is (the segment tuple then acts as its own
two-point polyline downstream, which the `map` here makes explicit in the
types). -/
def group_contiguous_segments (segments : List Seg) : List (List Point) :=
  if segments.length ≤ 1 then segments.map (fun p => [p.1, p.2])
  else stitchLoop (2 * segments.length + 1) [] segments []

/-- The body of `toolpath_from_polylines`' `for polyline in polylines` loop:
prepend a lift waypoint over the polyline's first point (`polyline[0]` —
`none` models the `IndexError` on an empty polyline), append the polyline,
then append a lift waypoint over the accumulated path's last point
(`toolpath[-1]`). -/
def toolpathGo (acc : List Point) : List (List Point) → Option (List Point)
  | [] => some acc
  | poly :: rest =>
    match poly with
    | [] => none
    | (fx, fy, fz) :: qs =>
      let acc1 := acc ++ [(fx, fy + 0, fz + 1/2)] ++ ((fx, fy, fz) :: qs)
      let l := acc1.getLastD (fx, fy, fz)
      toolpathGo (acc1 ++ [(l.1, l.2.1 + 0, l.2.2 + 1/2)]) rest

/-- `toolpath_from_polylines` of `src/__init__.py`, with the source's fixed
clearance offset `(0, 0, 0.5)`.  The `x`/`y` components of the offset are 0;
they are kept in `toolpathGo` as `+ 0` to mirror `first_x + off_x` etc. -/
def toolpath_from_polylines (polylines : List (List Point)) :
    Option (List Point) :=
  toolpathGo [] polylines

/-! ## The overrotation corrector of `src/__init__.py` -/

/-- `speed_limit` of `fix_overrotation`: `math.radians(191) * 1.02`, a 2%
margin over the 191°/s physical limit, in radians per second. -/
noncomputable def speed_limit : ℝ := (191 * Real.pi / 180) * 1.02

open Classical in
/-- `fix_overrotation` of `src/__init__.py`: the first sample (no previous
angle) passes through; otherwise compare `|current - last| * fps` against
`speed_limit`; under the limit the raw angle passes through; over it, a
negative-to-positive sign crossing yields `-2π + current`, a
positive-to-negative one yields `2π + current`, and anything else raises
(`Except.error`, the source's `Exception('Over speed limit')`). -/
noncomputable def fix_overrotation (fps current_angle : ℝ)
    (last_angle : Option ℝ) : Except Unit ℝ :=
  match last_angle with
  | none => .ok current_angle
  | some last =>
    if |current_angle - last| * fps < speed_limit then .ok current_angle
    else if last < 0 ∧ 0 < current_angle then .ok (-2 * Real.pi + current_angle)
    else if 0 < last ∧ current_angle < 0 then .ok (2 * Real.pi + current_angle)
    else .error ()

/-- The per-frame correction loop of `URxExportAnimationOperator.execute`
(lines 232–235): every joint index is visited but only index 0 is passed
through `fix_overrotation`; the other angles are stored unchanged. -/
noncomputable def correct_joints (fps : ℝ) (last0 : Option ℝ) :
    ℕ → List ℝ → Except Unit (List ℝ)
  | _, [] => .ok []
  | i, a :: rest =>
    match (if i = 0 then fix_overrotation fps a last0 else .ok a) with
    | .error e => .error e
    | .ok c =>
      match correct_joints fps last0 (i + 1) rest with
      | .error e => .error e
      | .ok cs => .ok (c :: cs)

/-- One frame of the export loop's overrotation fix, starting at joint 0. -/
noncomputable def correct_frame (fps : ℝ) (last0 : Option ℝ)
    (angles : List ℝ) : Except Unit (List ℝ) :=
  correct_joints fps last0 0 angles

/-- The frame loop of `URxExportAnimationOperator.execute` restricted to
joint 0's trace: each frame's corrected angle becomes the next frame's
`last_angle` (`last_joint_angles = joint_angles` after the in-place fix);
the initial `last_angle` is `none` (`last_joint_angles = [None] * 6`). -/
noncomputable def fix_trace (fps : ℝ) : Option ℝ → List ℝ →
    Except Unit (List ℝ)
  | _, [] => .ok []
  | last, a :: rest =>
    match fix_overrotation fps a last with
    | .error e => .error e
    | .ok c =>
      match fix_trace fps (some c) rest with
      | .error e => .error e
      | .ok cs => .ok (c :: cs)

/-- The spec's claimed rounding for comparison with `round_half_even`:
round half away from zero. -/
def round_half_away (q : ℚ) : ℤ :=
  if q - ⌊q⌋ < 1/2 then ⌊q⌋
  else if 1/2 < q - ⌊q⌋ then ⌊q⌋ + 1
  else if q < 0 then ⌊q⌋ else ⌊q⌋ + 1

/-- `f_to_s` as the spec words it (round-half-away-from-zero), for
comparison with the embedded `f_to_s`. -/
def f_to_s_spec (v : ℚ) : String :=
  let n : ℤ := round_half_away (v * 100000)
  (if v < 0 then "-" else "") ++ toString (n.natAbs / 100000) ++ "." ++
    frac5 (n.natAbs % 100000)

/-- All characters of `s` are decimal digits. -/
def allDigits (s : String) : Bool := s.data.all Char.isDigit

/-- Adjacent polyline points `a`, `b` are joined by a segment of `segs`
end-to-end within the tolerance: one endpoint of the segment is the new
point exactly and the other lies within `close_enough` of the point it was
attached to (in either orientation and at either end). -/
def IsChainPair (segs : List Seg) (a b : Point) : Prop :=
  ∃ se ∈ segs,
    (b = se.2 ∧ close_enough a se.1 = true) ∨
    (b = se.1 ∧ close_enough a se.2 = true) ∨
    (a = se.2 ∧ close_enough b se.1 = true) ∨
    (a = se.1 ∧ close_enough b se.2 = true)

instance (segs : List Seg) (a b : Point) : Decidable (IsChainPair segs a b) :=
  inferInstanceAs (Decidable (∃ se ∈ segs,
    (b = se.2 ∧ close_enough a se.1 = true) ∨
    (b = se.1 ∧ close_enough a se.2 = true) ∨
    (a = se.2 ∧ close_enough b se.1 = true) ∨
    (a = se.1 ∧ close_enough b se.2 = true)))

/-- A polyline is a chain of the input segments: every adjacent pair of its
points is joined end-to-end within the tolerance. -/
def IsChain (segs : List Seg) : List Point → Prop
  | [] => True
  | [_] => True
  | a :: b :: rest => IsChainPair segs a b ∧ IsChain segs (b :: rest)

instance instDecIsChain (segs : List Seg) :
    ∀ p : List Point, Decidable (IsChain segs p)
  | [] => isTrue trivial
  | [_] => isTrue trivial
  | a :: b :: rest =>
    have : Decidable (IsChain segs (b :: rest)) :=
      instDecIsChain segs (b :: rest)
    inferInstanceAs (Decidable (IsChainPair segs a b ∧ IsChain segs (b :: rest)))

instance : DecidableEq (Except Unit URScript) := fun a b =>
  match a, b with
  | .ok x, .ok y =>
    if h : x = y then isTrue (by rw [h]) else isFalse (by simp [h])
  | .error x, .error y => isTrue (by cases x; cases y; rfl)
  | .ok _, .error _ => isFalse (by simp)
  | .error _, .ok _ => isFalse (by simp)

/-! ## Theorems -/

/-- The decidable `close_enough` agrees with the source's
`distance(a, b) < 0.01`. -/
theorem close_enough_iff_distance (a b : Point) :
    close_enough a b = true ↔ distance a b < 1/100 := by
  have h100 : (0:ℝ) < 1/100 := by norm_num
  rw [close_enough, distance, decide_eq_true_eq, Real.sqrt_lt' h100]
  rw [show ((1:ℝ)/100) ^ 2 = ((1/10000 : ℚ) : ℝ) by norm_num]
  constructor
  · intro h
    calc (((b.1 - a.1 : ℚ) : ℝ)) ^ 2 + (((b.2.1 - a.2.1 : ℚ) : ℝ)) ^ 2 +
        (((b.2.2 - a.2.2 : ℚ) : ℝ)) ^ 2
        = (((b.1 - a.1) ^ 2 + (b.2.1 - a.2.1) ^ 2 + (b.2.2 - a.2.2) ^ 2 : ℚ) : ℝ) := by
          push_cast; ring
      _ < ((1/10000 : ℚ) : ℝ) := by exact_mod_cast h
  · intro h
    have h2 : (((b.1 - a.1) ^ 2 + (b.2.1 - a.2.1) ^ 2 + (b.2.2 - a.2.2) ^ 2 : ℚ) : ℝ) <
        ((1/10000 : ℚ) : ℝ) := by
      calc (((b.1 - a.1) ^ 2 + (b.2.1 - a.2.1) ^ 2 + (b.2.2 - a.2.2) ^ 2 : ℚ) : ℝ)
          = (((b.1 - a.1 : ℚ) : ℝ)) ^ 2 + (((b.2.1 - a.2.1 : ℚ) : ℝ)) ^ 2 +
            (((b.2.2 - a.2.2 : ℚ) : ℝ)) ^ 2 := by push_cast; ring
        _ < ((1/10000 : ℚ) : ℝ) := h
    exact_mod_cast h2

/-- C5 counterexample: at depth 1 with empty accumulated text, `end` ends up
with no indentation — the line is indented at the depth after decrementing
(0 tabs), not, as the claim states, at the depth in effect before
decrementing (which would give `"\tend\n"` and reach the same final
depth 0). -/
theorem end_counterexample :
    URScript.end' ⟨"", 1⟩ = .ok ⟨"end\n", 0⟩ ∧
    (⟨"end\n", 0⟩ : URScript) ≠ ⟨"\tend\n", 0⟩ := by decide

/-- C5 (amended): `close_block` (`URScript.end`) fails when the depth is 0;
otherwise it decrements the depth by one and then emits the `end` line,
indented at the decremented depth. -/
theorem end_emits_at_decremented_depth (s : URScript) :
    (s.indent_level = 0 → s.end' = .error ()) ∧
    (s.indent_level ≠ 0 →
      s.end' = .ok (URScript.add_line ⟨s.text, s.indent_level - 1⟩ "end")) := by
  constructor
  · intro h; simp [URScript.end', h]
  · intro h; simp [URScript.end', h]

/-- C5 witness: the amended behaviour at depth 2 and the failure at
depth 0, at concrete states. -/
theorem end_emits_at_decremented_depth_witness :
    URScript.end' ⟨"a\n", 2⟩ = .ok (URScript.add_line ⟨"a\n", 1⟩ "end") ∧
    URScript.end' ⟨"", 0⟩ = .error () :=
  ⟨(end_emits_at_decremented_depth ⟨"a\n", 2⟩).2 (by decide),
   (end_emits_at_decremented_depth ⟨"", 0⟩).1 rfl⟩

/-- Every `add_line` leaves the accumulated text ending in a newline. -/
theorem add_line_newline (s : URScript) (line : String) :
    ∃ t, (s.add_line line).text = t ++ "\n" :=
  ⟨s.text ++ tabs s.indent_level ++ strip line, rfl⟩

/-- The builder's newline invariant: the text is empty or newline-terminated. -/
def NewlineInv (s : URScript) : Prop := s.text = "" ∨ ∃ t, s.text = t ++ "\n"

/-- One builder call preserves the newline invariant. -/
theorem run_newline {s s' : URScript} (op : Op) (_hs : NewlineInv s)
    (h : s.run op = .ok s') : NewlineInv s' := by
  cases op with
  | function name args =>
    simp only [URScript.run, URScript.function, Except.ok.injEq] at h
    subst h
    exact Or.inr (add_line_newline s _)
  | while_loop c =>
    simp only [URScript.run, URScript.while_loop, Except.ok.injEq] at h
    subst h
    exact Or.inr (add_line_newline s _)
  | set_tool_digital_out i st =>
    simp only [URScript.run, URScript.set_tool_digital_out,
      Except.ok.injEq] at h
    subst h
    exact Or.inr (add_line_newline s _)
  | servoj angles t l g =>
    simp only [URScript.run, URScript.servoj] at h
    split at h
    · simp only [Except.ok.injEq] at h
      subst h
      exact Or.inr (add_line_newline s _)
    · cases h
  | movej angles a v t r =>
    simp only [URScript.run, URScript.movej] at h
    split at h
    · simp only [Except.ok.injEq] at h
      subst h
      exact Or.inr (add_line_newline s _)
    · cases h
  | end' =>
    simp only [URScript.run, URScript.end'] at h
    split at h
    · cases h
    · simp only [Except.ok.injEq] at h
      subst h
      exact Or.inr (add_line_newline _ "end")

/-- A run of builder calls preserves the newline invariant. -/
theorem runOps_newline : ∀ (ops : List Op) (s s' : URScript), NewlineInv s →
    runOps s ops = .ok s' → NewlineInv s'
  | [], s, s', hs, h => by cases h; exact hs
  | op :: ops, s, s', hs, h => by
    unfold runOps at h
    cases hr : s.run op with
    | error e => rw [hr] at h; cases h
    | ok s1 => rw [hr] at h; exact runOps_newline ops s1 s' (run_newline op hs hr) h

/-- C6 counterexample: on the freshly initialised builder (depth 0, no lines
emitted) `finalize` succeeds and returns the accumulated text `""`, which is
not terminated by a final newline. -/
theorem finalize_counterexample :
    URScript.finalize URScript.init = .ok "" ∧
    ¬ ∃ t : String, ("" : String) = t ++ "\n" := by
  refine ⟨rfl, ?_⟩
  rintro ⟨t, ht⟩
  have hl := congrArg String.length ht
  rw [String.length_append, show ("\n" : String).length = 1 from rfl,
    show ("" : String).length = 0 from rfl] at hl
  omega

/-- C6 (amended): on every state the builder can reach, `finalize` fails
exactly when the depth is nonzero, and otherwise returns the accumulated
text, which has no trailing open blocks and — whenever any line has been
emitted — is terminated by a final newline. -/
theorem finalize_of_reachable (ops : List Op) (s : URScript)
    (h : runOps URScript.init ops = .ok s) :
    (s.indent_level ≠ 0 → s.finalize = .error ()) ∧
    (s.indent_level = 0 → s.finalize = .ok s.text) ∧
    (s.text = "" ∨ ∃ t, s.text = t ++ "\n") := by
  refine ⟨fun hne => ?_, fun he => ?_, ?_⟩
  · simp [URScript.finalize, hne]
  · simp [URScript.finalize, he]
  · exact runOps_newline ops URScript.init s (Or.inl rfl) h

/-- C6 witness: a balanced two-call program, finalised at depth 0 with
newline-terminated text. -/
theorem finalize_of_reachable_witness :
    runOps URScript.init [Op.function "f" [], Op.end'] =
      .ok ⟨"def f():\nend\n", 0⟩ ∧
    URScript.finalize ⟨"def f():\nend\n", 0⟩ = .ok "def f():\nend\n" := by
  have h : runOps URScript.init [Op.function "f" [], Op.end'] =
      .ok ⟨"def f():\nend\n", 0⟩ := by decide
  exact ⟨h, (finalize_of_reachable [Op.function "f" [], Op.end'] _ h).2.1 rfl⟩

/-- C7: `servoj` and `movej` raise exactly when the angle vector does not
have exactly 6 elements.  The arity check precedes any emission in the
source, which the embedding renders by returning `Except.error` without any
successor state: an erroring call contributes no text. -/
theorem servoj_movej_arity (s : URScript) (angles : List ℚ)
    (t lookahead_time gain a v t2 r : ℚ) :
    (s.servoj angles t lookahead_time gain = .error () ↔ angles.length ≠ 6) ∧
    (s.movej angles a v t2 r = .error () ↔ angles.length ≠ 6) := by
  by_cases h : angles.length = 6 <;>
    simp [URScript.servoj, URScript.movej, h]

unseal Rat.mul Rat.inv Rat.add Rat.sub in
/-- C9 counterexample: at the exactly representable input `1/64 = 0.015625`
(where Python's `float(v)` is the identity), `'{0:.5f}'` rounds the tie
`1562.5` to the even digit, printing `0.01562`, while the claimed
round-half-away-from-zero would print `0.01563`. -/
theorem f_to_s_counterexample :
    f_to_s (1/64) = "0.01562" ∧ f_to_s_spec (1/64) = "0.01563" ∧
    f_to_s (1/64) ≠ f_to_s_spec (1/64) := by decide

/-- `frac5` always renders exactly 5 characters. -/
theorem frac5_length (n : ℕ) : (frac5 n).length = 5 := rfl

/-- The character of a digit below 10 is a decimal digit. -/
theorem digitChar_isDigit (d : ℕ) (h : d < 10) :
    (digitChar d).isDigit = true := by
  interval_cases d <;> decide

/-- `frac5` renders only decimal digits. -/
theorem frac5_allDigits (n : ℕ) : allDigits (frac5 n) = true := by
  have h10 : (0:ℕ) < 10 := by norm_num
  simp only [allDigits, frac5, List.all_cons, List.all_nil, Bool.and_true,
    Bool.and_eq_true]
  refine ⟨?_, ?_, ?_, ?_, ?_⟩ <;>
    exact digitChar_isDigit _ (Nat.mod_lt _ h10)

unseal Rat.mul Rat.inv Rat.add Rat.sub in
/-- C9 (amended): `f_to_s` always produces a text whose part after the
decimal point has exactly 5 characters, all decimal digits, and the spec's
examples hold: `f_to_s 1 = "1.00000"` and `f_to_s (-0.000004) = "-0.00000"`
(the rounding at ties is to even, per `f_to_s_counterexample`; determinism
is inherent in the pure model). -/
theorem f_to_s_five_digits :
    (∀ q : ℚ, ∃ pre post : String, f_to_s q = pre ++ "." ++ post ∧
      post.length = 5 ∧ allDigits post = true) ∧
    f_to_s 1 = "1.00000" ∧ f_to_s (-(4/1000000)) = "-0.00000" := by
  refine ⟨fun q => ?_, by decide, by decide⟩
  have hq : f_to_s q = ((if q < 0 then "-" else "") ++
      toString ((round_half_even (q * 100000)).natAbs / 100000)) ++ "." ++
      frac5 ((round_half_even (q * 100000)).natAbs % 100000) := rfl
  exact Exists.intro _ (Exists.intro _
    (And.intro hq (And.intro (frac5_length _) (frac5_allDigits _))))

/-- A point is close enough to itself. -/
theorem close_enough_self (a : Point) : close_enough a a = true := by
  simp [close_enough]

/-- Appending a point chained to the last point preserves chain-ness. -/
theorem isChain_append (S : List Seg) :
    ∀ (f : Point) (ps : List Point) (x : Point), IsChain S (f :: ps) →
    IsChainPair S ((f :: ps).getLastD f) x → IsChain S ((f :: ps) ++ [x])
  | _, [], _, _, hx => ⟨hx, trivial⟩
  | _, a :: as, x, h, hx =>
    ⟨h.1, isChain_append S a as x h.2 hx⟩

/-- Prepending a point chained to the first point preserves chain-ness. -/
theorem isChain_cons (S : List Seg) (x f : Point) (ps : List Point)
    (h : IsChain S (f :: ps)) (hx : IsChainPair S x f) :
    IsChain S (x :: f :: ps) :=
  ⟨hx, h⟩

/-- A two-point polyline seeded from a segment of `S` is a chain of `S`. -/
theorem isChain_seed (S : List Seg) (s e : Point) (hmem : (s, e) ∈ S) :
    IsChain S [s, e] :=
  ⟨⟨(s, e), hmem, Or.inl ⟨rfl, close_enough_self s⟩⟩, trivial⟩

/-- A pass over a nonempty segment list with an empty current polyline always
sets the extended flag (the first segment seeds the polyline). -/
theorem stitchPass_seed_ext (s e : Point) (rest : List Seg) :
    (stitchPass [] ((s, e) :: rest)).2.2 = true := rfl

/-- The pass invariant: starting from a polyline that is empty or a chain of
`S` with at least two points, the pass returns such a polyline again, retains
only segments it was given, and returns an empty polyline only when it was
given one (together with no segments at all). -/
theorem stitchPass_spec (S : List Seg) :
    ∀ (segs : List Seg) (poly : List Point), segs ⊆ S →
    (poly = [] ∨ (IsChain S poly ∧ 2 ≤ poly.length)) →
    ((stitchPass poly segs).1 = [] ∨
      (IsChain S (stitchPass poly segs).1 ∧
        2 ≤ (stitchPass poly segs).1.length)) ∧
    (stitchPass poly segs).2.1 ⊆ segs ∧
    ((stitchPass poly segs).1 = [] → poly = []) := by
  intro segs
  induction segs with
  | nil =>
    intro poly _ hpoly
    exact ⟨hpoly, List.Subset.refl _, fun h => h⟩
  | cons se rest ih =>
    obtain ⟨s, e⟩ := se
    intro poly hsub hpoly
    have hrest : rest ⊆ S := fun x hx => hsub (List.mem_cons_of_mem _ hx)
    have hse : (s, e) ∈ S := hsub (List.mem_cons_self _ _)
    match poly, hpoly with
    | [], _ =>
      have hseed : [s, e] = [] ∨ (IsChain S [s, e] ∧ 2 ≤ ([s, e] : List Point).length) :=
        Or.inr ⟨isChain_seed S s e hse, by simp⟩
      obtain ⟨h1, h2, h3⟩ := ih [s, e] hrest hseed
      refine ⟨?_, ?_, ?_⟩
      · simpa only [stitchPass] using h1
      · simp only [stitchPass]
        exact fun x hx => List.mem_cons_of_mem _ (h2 hx)
      · intro h
        simp only [stitchPass] at h
        exact absurd (h3 h) (by simp)
    | f :: ps, Or.inr ⟨hchain, hlen⟩ =>
      simp only [stitchPass]
      set last := (f :: ps).getLastD f with hlast
      by_cases h1 : close_enough last s = true
      · have hext : IsChain S ((f :: ps) ++ [e]) :=
          isChain_append S f ps e hchain ⟨(s, e), hse, Or.inl ⟨rfl, h1⟩⟩
        obtain ⟨g1, g2, g3⟩ := ih ((f :: ps) ++ [e]) hrest
          (Or.inr ⟨hext, by
            simp only [List.length_append, List.length_cons]; omega⟩)
        rw [if_pos h1]
        refine ⟨g1, fun x hx => List.mem_cons_of_mem _ (g2 hx), fun h => ?_⟩
        exact absurd (g3 h) (by simp)
      · rw [if_neg h1]
        by_cases h2 : close_enough last e = true
        · have hext : IsChain S ((f :: ps) ++ [s]) :=
            isChain_append S f ps s hchain ⟨(s, e), hse, Or.inr (Or.inl ⟨rfl, h2⟩)⟩
          obtain ⟨g1, g2, g3⟩ := ih ((f :: ps) ++ [s]) hrest
            (Or.inr ⟨hext, by
              simp only [List.length_append, List.length_cons]; omega⟩)
          rw [if_pos h2]
          refine ⟨g1, fun x hx => List.mem_cons_of_mem _ (g2 hx), fun h => ?_⟩
          exact absurd (g3 h) (by simp)
        · rw [if_neg h2]
          by_cases h3 : close_enough f s = true
          · have hext : IsChain S (e :: f :: ps) :=
              isChain_cons S e f ps hchain
                ⟨(s, e), hse, Or.inr (Or.inr (Or.inl ⟨rfl, h3⟩))⟩
            obtain ⟨g1, g2, g3⟩ := ih (e :: f :: ps) hrest
              (Or.inr ⟨hext, by simp⟩)
            rw [if_pos h3]
            refine ⟨g1, fun x hx => List.mem_cons_of_mem _ (g2 hx), fun h => ?_⟩
            exact absurd (g3 h) (by simp)
          · rw [if_neg h3]
            by_cases h4 : close_enough f e = true
            · have hext : IsChain S (s :: f :: ps) :=
                isChain_cons S s f ps hchain
                  ⟨(s, e), hse, Or.inr (Or.inr (Or.inr ⟨rfl, h4⟩))⟩
              obtain ⟨g1, g2, g3⟩ := ih (s :: f :: ps) hrest
                (Or.inr ⟨hext, by simp⟩)
              rw [if_pos h4]
              refine ⟨g1, fun x hx => List.mem_cons_of_mem _ (g2 hx), fun h => ?_⟩
              exact absurd (g3 h) (by simp)
            · rw [if_neg h4]
              obtain ⟨g1, g2, g3⟩ := ih (f :: ps) hrest
                (Or.inr ⟨hchain, hlen⟩)
              refine ⟨g1, ?_, fun h => absurd (g3 h) (by simp)⟩
              intro x hx
              rcases List.mem_cons.mp hx with hx | hx
              · exact hx ▸ List.mem_cons_self _ _
              · exact List.mem_cons_of_mem _ (g2 hx)

/-- The loop invariant: every polyline the loop emits is a chain of `S` with
at least two points. -/
theorem stitchLoop_spec (S : List Seg) :
    ∀ (fuel : ℕ) (segs : List Seg) (poly : List Point)
      (acc : List (List Point)), segs ⊆ S →
    (poly = [] ∨ (IsChain S poly ∧ 2 ≤ poly.length)) →
    (∀ q ∈ acc, IsChain S q ∧ 2 ≤ q.length) →
    ∀ q ∈ stitchLoop fuel poly segs acc, IsChain S q ∧ 2 ≤ q.length := by
  intro fuel
  induction fuel with
  | zero =>
    intro segs poly acc _ hpoly hacc q hq
    match segs with
    | [] =>
      rw [stitchLoop] at hq
      split at hq
      · exact hacc q hq
      · rcases List.mem_append.mp hq with h | h
        · exact hacc q h
        · rcases hpoly with hp | hp
          · simp_all
          · rw [List.mem_singleton.mp h]; exact hp
    | seg :: segs =>
      rw [stitchLoop] at hq
      split at hq
      · exact hacc q hq
      · rcases List.mem_append.mp hq with h | h
        · exact hacc q h
        · rcases hpoly with hp | hp
          · simp_all
          · rw [List.mem_singleton.mp h]; exact hp
  | succ fuel ih =>
    intro segs poly acc hsub hpoly hacc q hq
    match segs with
    | [] =>
      rw [stitchLoop] at hq
      split at hq
      · exact hacc q hq
      · rcases List.mem_append.mp hq with h | h
        · exact hacc q h
        · rcases hpoly with hp | hp
          · simp_all
          · rw [List.mem_singleton.mp h]; exact hp
    | (s, e) :: rest =>
      obtain ⟨p1, p2, p3⟩ := stitchPass_spec S ((s, e) :: rest) poly hsub hpoly
      rw [stitchLoop] at hq
      split at hq
      · exact ih _ _ _ (fun x hx => hsub (p2 hx)) p1 hacc q hq
      · rename_i hext
        have hpoly_ne : poly ≠ [] := by
          intro hnil
          rw [hnil] at hext
          exact hext (stitchPass_seed_ext s e rest)
        rcases hpoly with hp | hp
        · exact absurd hp hpoly_ne
        · refine ih _ _ _ hsub (Or.inl rfl) (fun r hr => ?_) q hq
          rcases List.mem_append.mp hr with h | h
          · exact hacc r h
          · rw [List.mem_singleton.mp h]; exact hp

/-- The ≤1-segment inputs are mapped to their own two-point polylines, which
are chains. -/
theorem group_chains (segs : List Seg) :
    ∀ p ∈ group_contiguous_segments segs, IsChain segs p ∧ 2 ≤ p.length := by
  intro p hp
  rw [group_contiguous_segments] at hp
  split at hp
  · obtain ⟨⟨s, e⟩, hmem, hmap⟩ := List.mem_map.mp hp
    rw [← hmap]
    exact ⟨isChain_seed segs s e hmem, by simp⟩
  · exact stitchLoop_spec segs _ segs [] [] (List.Subset.refl _)
      (Or.inl rfl) (by simp) p hp

/-- The toolpath fold is defined on any list of nonempty polylines. -/
theorem toolpathGo_isSome :
    ∀ (polys : List (List Point)) (acc : List Point),
    (∀ p ∈ polys, p ≠ []) → (toolpathGo acc polys).isSome = true := by
  intro polys
  induction polys with
  | nil => intro acc _; rfl
  | cons p rest ih =>
    intro acc hne
    match p, hne with
    | [], hne => exact absurd rfl (hne [] (List.mem_cons_self _ _))
    | (fx, fy, fz) :: qs, hne =>
      rw [toolpathGo]
      exact ih _ (fun r hr => hne r (List.mem_cons_of_mem _ hr))

unseal Rat.mul Rat.inv Rat.add Rat.sub in
/-- C8 counterexample: on the branching input
`{(0,0,0)-(1,0,0), (1,0,0)-(2,0,0), (1,0,0)-(5,0,0)}` the stitcher returns
the polyline `[(1,0,0),(5,0,0)]`, yet the input segment `(0,0,0)-(1,0,0)`
joins end-to-end to its first point, extending it to the strictly longer
chain `[(0,0,0),(1,0,0),(5,0,0)]` — so the returned polyline is not a
maximal chain of input segments, refuting the claim's general clause. -/
theorem group_not_maximal :
    group_contiguous_segments
      [((0,0,0),(1,0,0)), ((1,0,0),(2,0,0)), ((1,0,0),(5,0,0))] =
      [[(0,0,0),(1,0,0),(2,0,0)], [(1,0,0),(5,0,0)]] ∧
    IsChain [((0,0,0),(1,0,0)), ((1,0,0),(2,0,0)), ((1,0,0),(5,0,0))]
      [(0,0,0),(1,0,0),(5,0,0)] ∧
    ([(1,0,0),(5,0,0)] : List Point) ≠ [(0,0,0),(1,0,0),(5,0,0)] := by
  refine ⟨by decide, by decide, by decide⟩

unseal Rat.mul Rat.inv Rat.add Rat.sub in
/-- C8 (amended): the open-square segments stitch into exactly one polyline
of 4 points in connected order, and in general every returned polyline is a
chain of input segments joined end-to-end within the tolerance
`ε = 0.01` (`close_enough`, equivalent to Euclidean `distance < 0.01` by
`close_enough_iff_distance`) — but such a polyline need not be maximal. -/
theorem group_square_and_chains :
    group_contiguous_segments
      [((0,0,0),(1,0,0)), ((1,0,0),(1,1,0)), ((1,1,0),(0,1,0))] =
      [[(0,0,0),(1,0,0),(1,1,0),(0,1,0)]] ∧
    ∀ segs : List Seg, ∀ p ∈ group_contiguous_segments segs,
      IsChain segs p :=
  ⟨by decide, fun segs p hp => (group_chains segs p hp).1⟩

/-- C10: every polyline the stitcher returns has at least two points (in
particular none is empty), so `toolpath_from_polylines`' accesses to each
polyline's first and last point are always defined. -/
theorem group_no_short_polylines (segs : List Seg) :
    (∀ p ∈ group_contiguous_segments segs, 2 ≤ p.length) ∧
    (toolpath_from_polylines (group_contiguous_segments segs)).isSome =
      true := by
  refine ⟨fun p hp => (group_chains segs p hp).2, ?_⟩
  rw [toolpath_from_polylines]
  refine toolpathGo_isSome _ [] (fun p hp => ?_)
  have h2 := (group_chains segs p hp).2
  intro hnil
  rw [hnil] at h2
  simp at h2

unseal Rat.mul Rat.inv Rat.add Rat.sub in
/-- C10 witness: a single-segment input yields its own two-point polyline
and a defined toolpath. -/
theorem group_no_short_polylines_witness :
    2 ≤ ([((0:ℚ),(0:ℚ),(0:ℚ)), ((1:ℚ),(0:ℚ),(0:ℚ))] : List Point).length ∧
    (toolpath_from_polylines (group_contiguous_segments
      [(((0:ℚ),(0:ℚ),(0:ℚ)), ((1:ℚ),(0:ℚ),(0:ℚ)))])).isSome = true :=
  ⟨(group_no_short_polylines
      [(((0:ℚ),(0:ℚ),(0:ℚ)), ((1:ℚ),(0:ℚ),(0:ℚ)))]).1 _ (by decide),
   (group_no_short_polylines
      [(((0:ℚ),(0:ℚ),(0:ℚ)), ((1:ℚ),(0:ℚ),(0:ℚ)))]).2⟩

/-- The speed limit is positive. -/
theorem speed_limit_pos : 0 < speed_limit := by
  rw [speed_limit]
  positivity

/-- The first sample passes through unchanged. -/
theorem fix_overrotation_none (fps c : ℝ) :
    fix_overrotation fps c none = .ok c := rfl

/-- An accepted sample is either the raw angle (then it was under the limit)
or a wrapped one. -/
theorem fix_ok_cases (fps c l x : ℝ)
    (h : fix_overrotation fps c (some l) = .ok x) :
    (x = c ∧ |c - l| * fps < speed_limit) ∨
    x = -2 * Real.pi + c ∨ x = 2 * Real.pi + c := by
  simp only [fix_overrotation] at h
  by_cases h1 : |c - l| * fps < speed_limit
  · rw [if_pos h1] at h
    injection h with h
    exact Or.inl ⟨h.symm, h1⟩
  · rw [if_neg h1] at h
    by_cases h2 : l < 0 ∧ 0 < c
    · rw [if_pos h2] at h
      injection h with h
      exact Or.inr (Or.inl h.symm)
    · rw [if_neg h2] at h
      by_cases h3 : 0 < l ∧ c < 0
      · rw [if_pos h3] at h
        injection h with h
        exact Or.inr (Or.inr h.symm)
      · rw [if_neg h3] at h
        exact (Except.noConfusion h)

/-- A sample that comes out of the correction unchanged was under the speed
limit relative to the previous corrected angle. -/
theorem fix_ok_self (fps c l : ℝ)
    (h : fix_overrotation fps c (some l) = .ok c) :
    |c - l| * fps < speed_limit := by
  have hpi := Real.pi_pos
  rcases fix_ok_cases fps c l c h with ⟨_, hlt⟩ | hc | hc
  · exact hlt
  · linarith
  · linarith

/-- C3 counterexample: at `fps = 1`, `current = speed_limit`, `last = 0` the
instantaneous speed equals the limit exactly, so the claim requires the raw
angle to pass through — but `under_speedlimit` uses a strict `<`, no sign
crossing applies (`last = 0`), and the source raises OverspeedError. -/
theorem fix_at_limit_counterexample :
    fix_overrotation 1 speed_limit (some 0) = .error () ∧
    |speed_limit - 0| * 1 ≤ speed_limit := by
  have h0 : (0:ℝ) < speed_limit := speed_limit_pos
  have habs : |speed_limit - 0| * 1 = speed_limit := by
    rw [sub_zero, mul_one, abs_of_pos h0]
  refine ⟨?_, le_of_eq habs⟩
  simp only [fix_overrotation]
  rw [if_neg (by rw [habs]; exact lt_irrefl _),
    if_neg (fun hq => lt_irrefl (0:ℝ) hq.1),
    if_neg (fun hq => lt_irrefl (0:ℝ) hq.1)]

/-- C3 (amended): the first frame always passes through unchanged, and a
frame whose instantaneous speed is strictly below `speed_limit` passes
through unchanged. -/
theorem fix_overrotation_passthrough (fps current last : ℝ) :
    fix_overrotation fps current none = .ok current ∧
    (|current - last| * fps < speed_limit →
      fix_overrotation fps current (some last) = .ok current) := by
  refine ⟨rfl, fun h => ?_⟩
  simp only [fix_overrotation]
  rw [if_pos h]

/-- C3 witness: a zero-speed step passes through. -/
theorem fix_overrotation_passthrough_witness :
    |(0:ℝ) - 0| * 1 < speed_limit ∧
    fix_overrotation 1 0 none = .ok 0 ∧
    fix_overrotation 1 0 (some 0) = .ok 0 := by
  have h : |(0:ℝ) - 0| * 1 < speed_limit := by
    simpa using speed_limit_pos
  exact ⟨h, (fix_overrotation_passthrough 1 0 0).1,
    (fix_overrotation_passthrough 1 0 0).2 h⟩

/-- C2: when the instantaneous speed strictly exceeds the limit, a
negative-to-positive sign crossing yields `current - 2π`, a
positive-to-negative one yields `current + 2π`, and in every other case the
source raises OverspeedError (`Except.error`, aborting the export). -/
theorem fix_overrotation_over (fps current last : ℝ)
    (h : speed_limit < |current - last| * fps) :
    (last < 0 → 0 < current →
      fix_overrotation fps current (some last) =
        .ok (current - 2 * Real.pi)) ∧
    (0 < last → current < 0 →
      fix_overrotation fps current (some last) =
        .ok (current + 2 * Real.pi)) ∧
    (¬(last < 0 ∧ 0 < current) → ¬(0 < last ∧ current < 0) →
      fix_overrotation fps current (some last) = .error ()) := by
  have hn : ¬(|current - last| * fps < speed_limit) := not_lt.mpr (le_of_lt h)
  refine ⟨fun hl hc => ?_, fun hl hc => ?_, fun hnc1 hnc2 => ?_⟩
  · simp only [fix_overrotation]
    rw [if_neg hn, if_pos ⟨hl, hc⟩]
    congr 1
    ring
  · simp only [fix_overrotation]
    rw [if_neg hn, if_neg (fun hq => lt_asymm hl hq.1), if_pos ⟨hl, hc⟩]
    congr 1
    ring
  · simp only [fix_overrotation]
    rw [if_neg hn, if_neg hnc1, if_neg hnc2]

/-- C2 witness: the negative-to-positive wrap at a concrete over-limit
step. -/
theorem fix_overrotation_over_witness :
    speed_limit < |(10:ℝ) - (-10)| * 1 ∧
    fix_overrotation 1 10 (some (-10)) = .ok (10 - 2 * Real.pi) := by
  have h : speed_limit < |(10:ℝ) - (-10)| * 1 := by
    have hpi := Real.pi_lt_d2
    rw [speed_limit, show |(10:ℝ) - (-10)| = 20 by norm_num]
    nlinarith
  exact ⟨h, (fix_overrotation_over 1 10 (-10) h).1 (by norm_num) (by norm_num)⟩

/-- The corrected trace has the input's length. -/
theorem fix_trace_length (fps : ℝ) :
    ∀ (raw : List ℝ) (last : Option ℝ) (out : List ℝ),
    fix_trace fps last raw = .ok out → out.length = raw.length
  | [], _, _, h => by cases h; rfl
  | a :: as, last, out, h => by
    simp only [fix_trace] at h
    cases hf : fix_overrotation fps a last with
    | error e => rw [hf] at h; cases h
    | ok c =>
      rw [hf] at h
      dsimp only at h
      cases ht : fix_trace fps (some c) as with
      | error e => rw [ht] at h; cases h
      | ok cs =>
        rw [ht] at h
        dsimp only at h
        cases h
        simp [fix_trace_length fps as (some c) cs ht]

/-- Along an accepted trace, every position whose corrected angle equals the
raw angle was under the speed limit relative to the previous corrected angle
(position 0 measured against the incoming `l`). -/
theorem fix_trace_pairs (fps : ℝ) :
    ∀ (raw : List ℝ) (l : ℝ) (out : List ℝ),
    fix_trace fps (some l) raw = .ok out →
    ∀ i, i < out.length → out.getD i 0 = raw.getD i 0 →
      |out.getD i 0 - (l :: out).getD i 0| * fps < speed_limit
  | [], _, _, h => by
    cases h
    intro i hi
    simp at hi
  | a :: as, l, out, h => by
    simp only [fix_trace] at h
    cases hf : fix_overrotation fps a (some l) with
    | error e => rw [hf] at h; cases h
    | ok c =>
      rw [hf] at h
      dsimp only at h
      cases ht : fix_trace fps (some c) as with
      | error e => rw [ht] at h; cases h
      | ok cs =>
        rw [ht] at h
        dsimp only at h
        cases h
        intro i hi heq
        match i with
        | 0 =>
          simp only [List.getD_cons_zero] at heq ⊢
          rw [heq] at hf ⊢
          exact fix_ok_self fps a l hf
        | j + 1 =>
          simp only [List.getD_cons_succ] at heq ⊢
          simp only [List.length_cons, Nat.add_lt_add_iff_right] at hi
          exact fix_trace_pairs fps as c cs ht j hi heq

/-- C1 counterexample: the trace `[-10, 10]` at `fps = 1` is accepted (the
over-limit step is a negative-to-positive crossing and gets wrapped), yet the
corrected step `|corrected[1] - corrected[0]| * fps = 20 - 2π` still exceeds
`speed_limit`: the wrap correction never re-checks the corrected speed. -/
theorem fix_trace_counterexample :
    fix_trace 1 none [-10, 10] = .ok [-10, -2 * Real.pi + 10] ∧
    speed_limit < |(-2 * Real.pi + 10) - (-10)| * 1 := by
  have hpi := Real.pi_lt_d2
  have hpi0 := Real.pi_pos
  have hn : ¬(|(10:ℝ) - (-10)| * 1 < speed_limit) := by
    rw [not_lt, speed_limit, show |(10:ℝ) - (-10)| = 20 by norm_num]
    nlinarith
  have hf2 : fix_overrotation 1 10 (some (-10)) = .ok (-2 * Real.pi + 10) := by
    simp only [fix_overrotation]
    rw [if_neg hn, if_pos (by norm_num : (-10:ℝ) < 0 ∧ (0:ℝ) < 10)]
  constructor
  · simp only [fix_trace, fix_overrotation_none, hf2]
  · rw [speed_limit, show |(-2 * Real.pi + 10) - (-10)| = 20 - 2 * Real.pi by
      rw [abs_of_pos (by nlinarith)]; ring]
    nlinarith

/-- C1 (amended): an accepted corrected trace has the input's length, and at
every step whose corrected angle is the raw angle unchanged the corrected
step speed is under the limit; at wrap-corrected steps the bound need not
hold (see `fix_trace_counterexample`). -/
theorem fix_trace_speed (fps : ℝ) (raw out : List ℝ)
    (h : fix_trace fps none raw = .ok out) :
    out.length = raw.length ∧
    ∀ i, i + 1 < out.length → out.getD (i + 1) 0 = raw.getD (i + 1) 0 →
      |out.getD (i + 1) 0 - out.getD i 0| * fps < speed_limit := by
  refine ⟨fix_trace_length fps raw none out h, ?_⟩
  cases raw with
  | nil =>
    cases h
    intro i hi
    simp at hi
  | cons a as =>
    simp only [fix_trace, fix_overrotation] at h
    cases ht : fix_trace fps (some a) as with
    | error e => rw [ht] at h; cases h
    | ok cs =>
      rw [ht] at h
      dsimp only at h
      cases h
      intro i hi heq
      simp only [List.getD_cons_succ] at heq ⊢
      simp only [List.length_cons, Nat.add_lt_add_iff_right] at hi
      exact fix_trace_pairs fps as a cs ht i hi heq

/-- C1 witness: the constant trace `[0, 0]` at `fps = 1` is accepted
unchanged and satisfies the stated properties. -/
theorem fix_trace_speed_witness :
    fix_trace 1 none [0, 0] = .ok [0, 0] ∧
    ([0, 0] : List ℝ).length = ([0, 0] : List ℝ).length := by
  have hf : fix_overrotation 1 0 (some 0) = .ok 0 := by
    simp only [fix_overrotation]
    rw [if_pos (by simpa using speed_limit_pos)]
  have h : fix_trace 1 none [(0:ℝ), 0] = .ok [0, 0] := by
    simp only [fix_trace, fix_overrotation_none, hf]
  exact ⟨h, (fix_trace_speed 1 [0, 0] [0, 0] h).1⟩

/-- At a nonzero joint index the correction loop stores every angle
unchanged. -/
theorem correct_joints_pos (fps : ℝ) (last0 : Option ℝ) :
    ∀ (l : List ℝ) (i : ℕ), i ≠ 0 → correct_joints fps last0 i l = .ok l
  | [], _, _ => rfl
  | a :: rest, i, hi => by
    have h1 : (if i = 0 then fix_overrotation fps a last0 else .ok a) =
        .ok a := if_neg hi
    simp only [correct_joints, h1,
      correct_joints_pos fps last0 rest (i + 1) (Nat.succ_ne_zero i)]

/-- C4: in the per-frame correction loop, only joint index 0 is corrected:
for every joint index `i ≥ 1` the stored angle equals the raw converter
output unchanged. -/
theorem correct_frame_upper (fps : ℝ) (last0 : Option ℝ)
    (angles out : List ℝ) (h : correct_frame fps last0 angles = .ok out) :
    ∀ i, 1 ≤ i → out.getD i 0 = angles.getD i 0 := by
  cases angles with
  | nil =>
    cases h
    intro i _
    rfl
  | cons a rest =>
    simp only [correct_frame, correct_joints, if_pos rfl,
      correct_joints_pos fps last0 rest 1 one_ne_zero] at h
    cases hf : fix_overrotation fps a last0 with
    | error e => rw [hf] at h; cases h
    | ok c =>
      rw [hf] at h
      cases h
      intro i hi
      match i, hi with
      | j + 1, _ => simp only [List.getD_cons_succ]

/-- C4 witness: a concrete two-joint frame, with joint 1 stored unchanged. -/
theorem correct_frame_upper_witness :
    correct_frame 1 none [1, 2] = .ok [1, 2] ∧
    ([1, 2] : List ℝ).getD 1 0 = ([1, 2] : List ℝ).getD 1 0 := by
  have h : correct_frame 1 none [(1:ℝ), 2] = .ok [1, 2] := rfl
  exact ⟨h, correct_frame_upper 1 none [1, 2] [1, 2] h 1 le_rfl⟩

end Binder
